import Mathlib

/-!
Shallow embedding of `value_array` (src/value_array.hh), the multi-column
copy-on-update row used as the leaf payload of the Masstree store.

Modelling choices:
* A column payload (`lcdf::inline_string*`) is identified by its address.
  The heap of payloads is a list of byte strings, indexed by address;
  allocation appends at the end, so a fresh address is the current length.
  A column slot (`cols_[i]`) is `Option Addr`: `none` is the null pointer.
* A row is its timestamp `ts_` together with the slot vector `cols_`
  (`ncol_` is the length of the vector, as enforced by the allocation size).
* `threadinfo` is the payload heap plus a log of deallocation events; the
  two reclamation channels (immediate and RCU) are distinguished in the log.
* A fatal condition (failed `masstree_precondition` / `mandatory_assert`,
  or a dereference of the null pointer) is modelled as `none` of an
  `Option` result: the operation returns nothing.
* Machine integers: `kvtimestamp_t` is an unsigned 64-bit counter and the
  column indices are small non-negative `short` values, so both are
  modelled as `Nat`; the `unsigned(i) < unsigned(ncol_)` comparison in
  `col`, whose operand `i` is a C `int`, keeps its 32-bit wrap explicitly.
-/

abbrev Addr := Nat

/-- A column slot: a reference to a payload, or the null pointer. -/
abbrev Ref := Option Addr

/-- A row: version timestamp `ts_` and slot vector `cols_`; the column
count `ncol_` of the source is `cols.length`. -/
structure Row where
  ts : Nat
  cols : List Ref
deriving DecidableEq

/-- A reclamation event recorded against the thread context: a payload or a
row header, each through the immediate or the deferred (RCU) channel.
Row-header events record the row and the size passed to the allocator. -/
inductive Dealloc where
  | colImm : Addr → Dealloc
  | colRcu : Addr → Dealloc
  | rowImm : Row → Nat → Dealloc
  | rowRcu : Row → Nat → Dealloc
deriving DecidableEq

/-- The thread context (`threadinfo`): the payload heap (address = list
index) and the log of deallocation events issued so far. -/
structure ThreadInfo where
  heap : List (List Nat)
  deallocs : List Dealloc
deriving DecidableEq

/-- A change-set: entries `(index, value_bytes)`; `index()` is `Prod.fst`
and `value()` is `Prod.snd`. -/
abbrev Changeset := List (Nat × List Nat)

/-- Sortedness precondition on a change-set: indices strictly ascending
(hence unique). -/
def CSorted (cs : Changeset) : Prop :=
  List.Pairwise (fun a b => a.1 < b.1) cs

instance : DecidablePred CSorted := fun cs =>
  inferInstanceAs (Decidable (List.Pairwise _ cs))

namespace value_array

/-- Size of the contiguous row allocation, `sizeof(value_array) +
sizeof(lcdf::inline_string*) * ncol` (lines 97-99): 8-byte `ts_` plus
2-byte `ncol_` padded to 16, and 8-byte pointers. -/
def shallow_size (ncol : Nat) : Nat :=
  16 + 8 * ncol

/-- The change-set operation `CS::last_index()`: the index of the last
entry. Undefined on an empty change-set (callers must not pass one);
modelled as 0 there, a case no claim exercises. -/
def last_index (cs : Changeset) : Nat :=
  ((cs.getLast?).map Prod.fst).getD 0

/-- value_array::make_column (lines 105-111): allocate a fresh payload
holding exactly the given bytes and return its reference. -/
def make_column (str : List Nat) (ti : ThreadInfo) : Addr × ThreadInfo :=
  (ti.heap.length, ⟨ti.heap ++ [str], ti.deallocs⟩)

/-- value_array::deallocate_column (lines 125-129): immediate reclamation
of a payload; a no-op on the null pointer. -/
def deallocate_column (c : Ref) (ti : ThreadInfo) : ThreadInfo :=
  match c with
  | some a => ⟨ti.heap, ti.deallocs ++ [Dealloc.colImm a]⟩
  | none => ti

/-- value_array::deallocate_column_rcu (lines 131-135): deferred (RCU)
reclamation of a payload; a no-op on the null pointer. -/
def deallocate_column_rcu (c : Ref) (ti : ThreadInfo) : ThreadInfo :=
  match c with
  | some a => ⟨ti.heap, ti.deallocs ++ [Dealloc.colRcu a]⟩
  | none => ti

/-- value_array::col (lines 90-95). The range test is the 32-bit unsigned
comparison `unsigned(i) < unsigned(ncol_)` on the `int` argument, so
negative `i` wraps above any column count. Inside the range the source
dereferences `cols_[i]` unconditionally; a null slot there is a null
dereference, modelled as `none`. Out of range it returns the empty view. -/
def col (ti : ThreadInfo) (r : Row) (i : Int) : Option (List Nat) :=
  if ((i % (2 : Int) ^ 32).toNat) < r.cols.length then
    match r.cols.getD ((i % (2 : Int) ^ 32).toNat) none with
    | some a => some (ti.heap.getD a [])
    | none => none
  else
    some []

/-- The column-overwrite loop of value_array::update (lines 146-148): for
each entry in order, store a freshly made column at the entry index.
`List.set` models the in-bounds store `row->cols_[it->index()] = ...`;
the sortedness precondition keeps every index below the allocated width. -/
def applyChanges : Changeset → List Ref → ThreadInfo → List Ref × ThreadInfo
  | [], cols, ti => (cols, ti)
  | e :: rest, cols, ti =>
      let p := make_column e.2 ti
      applyChanges rest (cols.set e.1 (some p.1)) p.2

/-- Line 140 of value_array::update: the new width
`std::max(int(ncol_), int(changeset.last_index()) + 1)`. -/
def newWidth (r : Row) (cs : Changeset) : Nat :=
  max r.cols.length (last_index cs + 1)

/-- Lines 144-145 of value_array::update: `memcpy` the old slot vector and
`memset` the tail beyond it to null. -/
def initCols (r : Row) (cs : Changeset) : List Ref :=
  r.cols ++ List.replicate (newWidth r cs - r.cols.length) none

/-- value_array::update (lines 137-150). The failed
`masstree_precondition(ts >= ts_)` (line 139) is fatal, modelled as
`none`; otherwise the new row carries the new timestamp and the slot
vector produced by copy, zero-fill and the overwrite loop. -/
def update (r : Row) (cs : Changeset) (ts : Nat) (ti : ThreadInfo) :
    Option (Row × ThreadInfo) :=
  if ts < r.ts then
    none
  else
    some (⟨ts, (applyChanges cs (initCols r cs) ti).1⟩,
          (applyChanges cs (initCols r cs) ti).2)

/-- The default constructor value_array::value_array (lines 78-80):
`ts_ = 0`, `ncol_ = 0`. -/
def mkEmpty : Row :=
  ⟨0, []⟩

/-- value_array::create (lines 152-156): update applied to a transient
default-constructed row. -/
def create (cs : Changeset) (ts : Nat) (ti : ThreadInfo) :
    Option (Row × ThreadInfo) :=
  update mkEmpty cs ts ti

/-- value_array::create1 (lines 158-164): a width-1 row with a fresh
payload at slot 0. -/
def create1 (value : List Nat) (ts : Nat) (ti : ThreadInfo) :
    Row × ThreadInfo :=
  let p := make_column value ti
  (⟨ts, [some p.1]⟩, p.2)

/-- The loop of value_array::deallocate_rcu_after_update (lines 168-170):
walk the change-set in order, RCU-freeing the slot at each entry index,
and STOP at the first entry whose index is not below `ncol_`. -/
def deallocRcuLoop (r : Row) : Changeset → ThreadInfo → ThreadInfo
  | [], ti => ti
  | e :: rest, ti =>
      if e.1 < r.cols.length then
        deallocRcuLoop r rest (deallocate_column_rcu (r.cols.getD e.1 none) ti)
      else
        ti

/-- value_array::deallocate_rcu_after_update (lines 166-172): the loop,
then RCU reclamation of the row header of size `shallow_size()`. -/
def deallocate_rcu_after_update (r : Row) (cs : Changeset) (ti : ThreadInfo) :
    ThreadInfo :=
  let ti1 := deallocRcuLoop r cs ti
  ⟨ti1.heap, ti1.deallocs ++ [Dealloc.rowRcu r (shallow_size r.cols.length)]⟩

/-- The loop of value_array::deallocate_after_failed_update (lines
176-178): immediately free the slot at every entry index, with no bound
test. (On a row built by `update`/`create` with this change-set every
entry index is in bounds; `getD` models the in-bounds read.) -/
def deallocImmLoop (r : Row) : Changeset → ThreadInfo → ThreadInfo
  | [], ti => ti
  | e :: rest, ti =>
      deallocImmLoop r rest (deallocate_column (r.cols.getD e.1 none) ti)

/-- value_array::deallocate_after_failed_update (lines 174-180): the loop,
then immediate reclamation of the row header of size `shallow_size()`. -/
def deallocate_after_failed_update (r : Row) (cs : Changeset) (ti : ThreadInfo) :
    ThreadInfo :=
  let ti1 := deallocImmLoop r cs ti
  ⟨ti1.heap, ti1.deallocs ++ [Dealloc.rowImm r (shallow_size r.cols.length)]⟩

/-- Modelled from the spec: the checkpoint byte reader (`kvin`, not under
src/). Reading `n` bytes yields those bytes and the rest of the stream,
and fails when fewer than `n` bytes remain. -/
def kvread_bytes (kv : List Nat) (n : Nat) : Option (List Nat × List Nat) :=
  if n ≤ kv.length then some (kv.take n, kv.drop n) else none

/-- Modelled from the spec: the framing of the 4-byte (`sizeof(int)`)
length field read by `KVR(kv, len)`, little-endian. -/
def decode_u32 (bs : List Nat) : Nat :=
  match bs with
  | [b0, b1, b2, b3] => b0 + 256 * (b1 + 256 * (b2 + 256 * b3))
  | _ => 0

/-- value_array::read_column (lines 113-123): read the 4-byte length
prefix (`mandatory_assert` on shortfall is fatal), allocate a payload of
that length, read exactly that many body bytes into it (`assert` on
shortfall is fatal, so no partial payload escapes). The byte reader is
modelled from the spec since `kvin` is not under src/. -/
def read_column (kv : List Nat) (ti : ThreadInfo) :
    Option ((Addr × List Nat) × ThreadInfo) :=
  match kvread_bytes kv 4 with
  | none => none
  | some (pre, kv1) =>
      match kvread_bytes kv1 (decode_u32 pre) with
      | none => none
      | some (body, kv2) =>
          let p := make_column body ti
          some ((p.1, kv2), p.2)

/-- One update step between row versions: `r2` is produced from `r` by a
call to `update` that passed its timestamp precondition (returned a row). -/
def IsUpdateSucc (r r2 : Row) : Prop :=
  ∃ cs ts ti out, update r cs ts ti = some out ∧ out.1 = r2

end value_array

/-! ### List helper lemmas -/

theorem getD_set_self {α : Type} (l : List α) (i : Nat) (a d : α)
    (h : i < l.length) : (l.set i a).getD i d = a := by
  induction l generalizing i with
  | nil => simp at h
  | cons x xs ih =>
    cases i with
    | zero => simp
    | succ m =>
      rw [List.set_cons_succ, List.getD_cons_succ]
      exact ih m (Nat.succ_lt_succ_iff.mp h)

theorem getD_set_ne {α : Type} (l : List α) (i j : Nat) (a d : α)
    (h : i ≠ j) : (l.set i a).getD j d = l.getD j d := by
  induction l generalizing i j with
  | nil => simp
  | cons x xs ih =>
    cases i with
    | zero =>
      cases j with
      | zero => exact absurd rfl h
      | succ k => rw [List.set_cons_zero, List.getD_cons_succ, List.getD_cons_succ]
    | succ m =>
      cases j with
      | zero => rw [List.set_cons_succ, List.getD_cons_zero, List.getD_cons_zero]
      | succ k =>
        rw [List.set_cons_succ, List.getD_cons_succ, List.getD_cons_succ]
        exact ih m k (fun hmk => h (by rw [hmk]))

theorem filterMap_length_of_isSome {α β : Type} (f : α → Option β) :
    ∀ l : List α, (∀ a ∈ l, (f a).isSome) → (l.filterMap f).length = l.length := by
  intro l
  induction l with
  | nil => intro _; rfl
  | cons x xs ih =>
    intro hall
    obtain ⟨b, hb⟩ := Option.isSome_iff_exists.mp (hall x (List.mem_cons_self x xs))
    rw [List.filterMap_cons, hb, List.length_cons,
      ih (fun a ha => hall a (List.mem_cons_of_mem x ha))]
    rfl

/-! ### Lemmas about the update machinery -/

namespace value_array

theorem applyChanges_cons (e : Nat × List Nat) (rest : Changeset)
    (cols : List Ref) (ti : ThreadInfo) :
    applyChanges (e :: rest) cols ti
      = applyChanges rest (cols.set e.1 (some ti.heap.length))
          ⟨ti.heap ++ [e.2], ti.deallocs⟩ := rfl

theorem applyChanges_length (cs : Changeset) :
    ∀ (cols : List Ref) (ti : ThreadInfo),
      (applyChanges cs cols ti).1.length = cols.length := by
  induction cs with
  | nil => intro cols ti; rfl
  | cons e rest ih =>
    intro cols ti
    rw [applyChanges_cons, ih, List.length_set]

theorem applyChanges_deallocs (cs : Changeset) :
    ∀ (cols : List Ref) (ti : ThreadInfo),
      (applyChanges cs cols ti).2.deallocs = ti.deallocs := by
  induction cs with
  | nil => intro cols ti; rfl
  | cons e rest ih =>
    intro cols ti
    rw [applyChanges_cons, ih]

theorem applyChanges_heap_ext (cs : Changeset) :
    ∀ (cols : List Ref) (ti : ThreadInfo),
      ∃ ext, (applyChanges cs cols ti).2.heap = ti.heap ++ ext := by
  induction cs with
  | nil => intro cols ti; exact ⟨[], (List.append_nil _).symm⟩
  | cons e rest ih =>
    intro cols ti
    obtain ⟨ext, hext⟩ :=
      ih (cols.set e.1 (some ti.heap.length)) ⟨ti.heap ++ [e.2], ti.deallocs⟩
    exact ⟨[e.2] ++ ext, by rw [applyChanges_cons, hext, List.append_assoc]⟩

theorem applyChanges_heap_getD (cs : Changeset) (cols : List Ref)
    (ti : ThreadInfo) (a : Nat) (h : a < ti.heap.length) :
    (applyChanges cs cols ti).2.heap.getD a [] = ti.heap.getD a [] := by
  obtain ⟨ext, hext⟩ := applyChanges_heap_ext cs cols ti
  rw [hext, List.getD_append _ _ _ _ h]

theorem applyChanges_heap_le (cs : Changeset) (cols : List Ref)
    (ti : ThreadInfo) :
    ti.heap.length ≤ (applyChanges cs cols ti).2.heap.length := by
  obtain ⟨ext, hext⟩ := applyChanges_heap_ext cs cols ti
  rw [hext, List.length_append]
  exact Nat.le_add_right _ _

theorem applyChanges_untouched (cs : Changeset) :
    ∀ (cols : List Ref) (ti : ThreadInfo) (i : Nat), i ∉ cs.map Prod.fst →
      (applyChanges cs cols ti).1.getD i none = cols.getD i none := by
  induction cs with
  | nil => intro cols ti i _; rfl
  | cons e rest ih =>
    intro cols ti i hi
    rw [List.map_cons] at hi
    have hne : e.1 ≠ i := fun hei => hi (hei ▸ List.mem_cons_self _ _)
    have hrest : i ∉ rest.map Prod.fst := fun hm => hi (List.mem_cons_of_mem _ hm)
    rw [applyChanges_cons, ih _ _ i hrest, getD_set_ne _ _ _ _ _ hne]

theorem applyChanges_touched (cs : Changeset) :
    ∀ (cols : List Ref) (ti : ThreadInfo), CSorted cs →
      ∀ i v, (i, v) ∈ cs → i < cols.length →
      ∃ a, (applyChanges cs cols ti).1.getD i none = some a ∧
        ti.heap.length ≤ a ∧ a < (applyChanges cs cols ti).2.heap.length ∧
        (applyChanges cs cols ti).2.heap.getD a [] = v := by
  induction cs with
  | nil => intro cols ti _ i v hm; cases hm
  | cons e rest ih =>
    intro cols ti hs i v hm hlt
    have hhead := (List.pairwise_cons.mp hs).1
    have hrest := (List.pairwise_cons.mp hs).2
    rw [applyChanges_cons]
    rcases List.mem_cons.mp hm with heq | hm2
    · -- the head entry: its slot gets the fresh address ti.heap.length
      have hi : e.1 = i := congrArg Prod.fst heq.symm
      have hv : e.2 = v := congrArg Prod.snd heq.symm
      subst hi; subst hv
      have hnotin : e.1 ∉ rest.map Prod.fst := by
        intro hmem
        obtain ⟨x, hx, hx1⟩ := List.mem_map.mp hmem
        exact absurd (hx1 ▸ hhead x hx) (lt_irrefl _)
      refine ⟨ti.heap.length, ?_, Nat.le_refl _, ?_, ?_⟩
      · rw [applyChanges_untouched rest _ _ _ hnotin,
          getD_set_self _ _ _ _ hlt]
      · have hle := applyChanges_heap_le rest (cols.set e.1 (some ti.heap.length))
          ⟨ti.heap ++ [e.2], ti.deallocs⟩
        have hone : ti.heap.length + 1
            ≤ (applyChanges rest (cols.set e.1 (some ti.heap.length))
                ⟨ti.heap ++ [e.2], ti.deallocs⟩).2.heap.length := by
          simpa using hle
        exact hone
      · obtain ⟨ext, hext⟩ := applyChanges_heap_ext rest
          (cols.set e.1 (some ti.heap.length)) ⟨ti.heap ++ [e.2], ti.deallocs⟩
        rw [hext, List.append_assoc,
          List.getD_append_right _ _ _ _ (Nat.le_refl _), Nat.sub_self]
        rfl
    · -- an entry of the tail: recurse past the head allocation
      obtain ⟨a, h1, h2, h3, h4⟩ :=
        ih (cols.set e.1 (some ti.heap.length)) ⟨ti.heap ++ [e.2], ti.deallocs⟩
          hrest i v hm2 (by rw [List.length_set]; exact hlt)
      refine ⟨a, h1, ?_, h3, h4⟩
      have h2' : ti.heap.length + 1 ≤ a := by simpa using h2
      omega

theorem initCols_length (r : Row) (cs : Changeset) :
    (initCols r cs).length = newWidth r cs := by
  rw [initCols, List.length_append, List.length_replicate, newWidth]
  omega

theorem initCols_getD_left (r : Row) (cs : Changeset) (i : Nat)
    (h : i < r.cols.length) :
    (initCols r cs).getD i none = r.cols.getD i none :=
  List.getD_append _ _ _ _ h

theorem initCols_getD_tail (r : Row) (cs : Changeset) (i : Nat)
    (h : r.cols.length ≤ i) : (initCols r cs).getD i none = none := by
  rw [initCols, List.getD_append_right _ _ _ _ h]
  simp [List.getD]

theorem last_index_ge : ∀ cs : Changeset, CSorted cs →
    ∀ e ∈ cs, e.1 ≤ last_index cs := by
  intro cs
  induction cs with
  | nil => intro _ e hm; cases hm
  | cons x rest ih =>
    intro hs e hm
    cases rest with
    | nil =>
      rcases List.mem_cons.mp hm with rfl | hm2
      · simp [last_index]
      · cases hm2
    | cons y rest2 =>
      have hli : last_index (x :: y :: rest2) = last_index (y :: rest2) := by
        rw [last_index, last_index, List.getLast?_cons_cons]
      have hhead := (List.pairwise_cons.mp hs).1
      have hrest := (List.pairwise_cons.mp hs).2
      rcases List.mem_cons.mp hm with rfl | hm2
      · have hxy : e.1 < y.1 := hhead y (List.mem_cons_self _ _)
        have hy : y.1 ≤ last_index (y :: rest2) :=
          ih hrest y (List.mem_cons_self _ _)
        omega
      · rw [hli]
        exact ih hrest e hm2

theorem update_eq (r : Row) (cs : Changeset) (ts : Nat) (ti : ThreadInfo)
    (hts : r.ts ≤ ts) :
    update r cs ts ti
      = some (⟨ts, (applyChanges cs (initCols r cs) ti).1⟩,
              (applyChanges cs (initCols r cs) ti).2) := by
  rw [update, if_neg (Nat.not_lt.mpr hts)]

theorem update_inv {r : Row} {cs : Changeset} {ts : Nat} {ti : ThreadInfo}
    {r2 : Row} {ti' : ThreadInfo}
    (h : update r cs ts ti = some (r2, ti')) :
    r.ts ≤ ts ∧ r2 = ⟨ts, (applyChanges cs (initCols r cs) ti).1⟩ ∧
      ti' = (applyChanges cs (initCols r cs) ti).2 := by
  by_cases hlt : ts < r.ts
  · rw [update, if_pos hlt] at h
    cases h
  · have hts := Nat.not_lt.mp hlt
    rw [update_eq r cs ts ti hts] at h
    simp only [Option.some.injEq, Prod.mk.injEq] at h
    exact ⟨hts, h.1.symm, h.2.symm⟩

theorem deallocRcuLoop_spec (r : Row) : ∀ (cs : Changeset) (ti : ThreadInfo),
    CSorted cs →
    (deallocRcuLoop r cs ti).heap = ti.heap ∧
    (deallocRcuLoop r cs ti).deallocs = ti.deallocs ++
      (cs.filter (fun e => decide (e.1 < r.cols.length))).filterMap
        (fun e => (r.cols.getD e.1 none).map Dealloc.colRcu) := by
  intro cs
  induction cs with
  | nil => intro ti _; simp [deallocRcuLoop]
  | cons e rest ih =>
    intro ti hs
    have hhead := (List.pairwise_cons.mp hs).1
    have hrest := (List.pairwise_cons.mp hs).2
    by_cases hb : e.1 < r.cols.length
    · have hstep : deallocRcuLoop r (e :: rest) ti
          = deallocRcuLoop r rest
              (deallocate_column_rcu (r.cols.getD e.1 none) ti) := by
        rw [deallocRcuLoop, if_pos hb]
      obtain ⟨ihh, ihd⟩ :=
        ih (deallocate_column_rcu (r.cols.getD e.1 none) ti) hrest
      constructor
      · rw [hstep, ihh]
        cases hslot : r.cols.getD e.1 none <;>
          simp [deallocate_column_rcu, hslot]
      · rw [hstep, ihd, List.filter_cons, if_pos (by simpa using hb),
          List.filterMap_cons]
        cases hslot : r.cols.getD e.1 none with
        | none => simp [deallocate_column_rcu, hslot]
        | some a =>
          simp [deallocate_column_rcu, hslot, List.append_assoc]
    · have hstep : deallocRcuLoop r (e :: rest) ti = ti := by
        rw [deallocRcuLoop, if_neg hb]
      have hfil : (e :: rest).filter
          (fun e => decide (e.1 < r.cols.length)) = [] := by
        rw [List.filter_eq_nil_iff]
        intro x hx
        rcases List.mem_cons.mp hx with rfl | hx2
        · simpa using hb
        · have hlt : e.1 < x.1 := hhead x hx2
          simp only [decide_eq_true_eq]
          omega
      rw [hstep, hfil]
      simp

theorem deallocImmLoop_spec (r : Row) : ∀ (cs : Changeset) (ti : ThreadInfo),
    (deallocImmLoop r cs ti).heap = ti.heap ∧
    (deallocImmLoop r cs ti).deallocs = ti.deallocs ++
      cs.filterMap (fun e => (r.cols.getD e.1 none).map Dealloc.colImm) := by
  intro cs
  induction cs with
  | nil => intro ti; simp [deallocImmLoop]
  | cons e rest ih =>
    intro ti
    have hstep : deallocImmLoop r (e :: rest) ti
        = deallocImmLoop r rest
            (deallocate_column (r.cols.getD e.1 none) ti) := rfl
    obtain ⟨ihh, ihd⟩ := ih (deallocate_column (r.cols.getD e.1 none) ti)
    constructor
    · rw [hstep, ihh]
      cases hslot : r.cols.getD e.1 none <;> simp [deallocate_column, hslot]
    · rw [hstep, ihd, List.filterMap_cons]
      cases hslot : r.cols.getD e.1 none with
      | none => simp [deallocate_column, hslot]
      | some a => simp [deallocate_column, hslot, List.append_assoc]

end value_array

/-! ### Claim theorems -/

/-- C1. The claim states that `col(i)` returns the empty view, without
dereferencing any payload, whenever `i` is out of range or the slot holds
the null reference. The code violates the null-slot half: on the row
`create([(1, bytes)], ts)` builds, whose slot 0 is null by the `memset` in
`update`, `col(0)` passes the range test and dereferences the null
pointer (modelled as the `none` result) instead of returning the empty
view. -/
theorem col_dereferences_null_slot :
    value_array.create [(1, [7])] 5 ⟨[], []⟩
      = some (⟨5, [none, some 0]⟩, ⟨[[7]], []⟩) ∧
    value_array.col ⟨[[7]], []⟩ ⟨5, [none, some 0]⟩ 0 = none ∧
    value_array.col ⟨[[7]], []⟩ ⟨5, [none, some 0]⟩ 0 ≠ some [] :=
  ⟨by decide, by decide, by decide⟩

/-- C2. Sharing discipline of `update`: on a sorted unique change-set with
a monotone timestamp, untouched old slots are copied reference-identical,
every change-set index receives a freshly allocated payload holding
exactly the change-set bytes, and untouched slots of the widened tail are
the null reference. -/
theorem update_sharing_discipline (r : Row) (cs : Changeset) (ts : Nat)
    (ti : ThreadInfo) (r2 : Row) (ti' : ThreadInfo)
    (hs : CSorted cs) (hne : cs ≠ []) (hts : r.ts ≤ ts)
    (h : value_array.update r cs ts ti = some (r2, ti')) :
    (∀ i, i < r.cols.length → i ∉ cs.map Prod.fst →
      r2.cols.getD i none = r.cols.getD i none) ∧
    (∀ e ∈ cs, ∃ a, r2.cols.getD e.1 none = some a ∧
      ti.heap.length ≤ a ∧ a < ti'.heap.length ∧
      ti'.heap.getD a [] = e.2) ∧
    (∀ i, r.cols.length ≤ i → i < r2.cols.length → i ∉ cs.map Prod.fst →
      r2.cols.getD i none = none) := by
  obtain ⟨hts2, hr2, hti⟩ := value_array.update_inv h
  subst hr2; subst hti
  refine ⟨?_, ?_, ?_⟩
  · intro i hi hni
    exact (value_array.applyChanges_untouched cs _ ti i hni).trans
      (value_array.initCols_getD_left r cs i hi)
  · intro e he
    have hw : e.1 < (value_array.initCols r cs).length := by
      rw [value_array.initCols_length]
      have hle := value_array.last_index_ge cs hs e he
      have hmax : value_array.newWidth r cs
          = max r.cols.length (value_array.last_index cs + 1) := rfl
      omega
    exact value_array.applyChanges_touched cs (value_array.initCols r cs) ti
      hs e.1 e.2 he hw
  · intro i hge _ hni
    exact (value_array.applyChanges_untouched cs _ ti i hni).trans
      (value_array.initCols_getD_tail r cs i hge)

/-- Witness for C2 at a concrete update: slot 1 of the successor holds a
fresh payload with the change-set bytes. -/
theorem update_sharing_discipline_witness :
    ∃ a, (⟨2, [some 0, some 2, none, some 3]⟩ : Row).cols.getD 1 none = some a ∧
      (⟨[[1], [2]], []⟩ : ThreadInfo).heap.length ≤ a ∧
      a < (⟨[[1], [2], [5], [9]], []⟩ : ThreadInfo).heap.length ∧
      (⟨[[1], [2], [5], [9]], []⟩ : ThreadInfo).heap.getD a [] = [5] :=
  (update_sharing_discipline ⟨1, [some 0, some 1]⟩ [(1, [5]), (3, [9])] 2
      ⟨[[1], [2]], []⟩ ⟨2, [some 0, some 2, none, some 3]⟩
      ⟨[[1], [2], [5], [9]], []⟩
      (by decide) (by decide) (by decide) (by decide)).2.1
    (1, [5]) (by decide)

/-- C3. An update with a valid change-set succeeds and produces a row of
width `max(old ncol, last_index + 1)` carrying the new timestamp. -/
theorem update_width_timestamp (r : Row) (cs : Changeset) (ts : Nat)
    (ti : ThreadInfo) (hs : CSorted cs) (hne : cs ≠ []) (hts : r.ts ≤ ts) :
    ∃ r2 ti', value_array.update r cs ts ti = some (r2, ti') ∧
      r2.cols.length = max r.cols.length (value_array.last_index cs + 1) ∧
      r2.ts = ts := by
  refine ⟨_, _, value_array.update_eq r cs ts ti hts, ?_, rfl⟩
  exact (value_array.applyChanges_length cs _ ti).trans
    (value_array.initCols_length r cs)

/-- Witness for C3 at a concrete widening update. -/
theorem update_width_timestamp_witness :
    ∃ r2 ti', value_array.update ⟨1, [some 0, some 1]⟩ [(3, [9])] 2
        ⟨[[1], [2]], []⟩ = some (r2, ti') ∧
      r2.cols.length
        = max (⟨1, [some 0, some 1]⟩ : Row).cols.length
            (value_array.last_index [(3, [9])] + 1) ∧
      r2.ts = 2 :=
  update_width_timestamp ⟨1, [some 0, some 1]⟩ [(3, [9])] 2 ⟨[[1], [2]], []⟩
    (by decide) (by decide) (by decide)

/-- C4. On a sorted change-set, `deallocate_rcu_after_update` issues
exactly one RCU payload reclamation per change-set entry whose index is
below the old width and whose slot is non-null, followed by the RCU
reclamation of the row header of size `shallow_size()`; slots the
change-set does not name are untouched, as the event list shows. -/
theorem dealloc_rcu_after_update_exact (r : Row) (cs : Changeset)
    (ti : ThreadInfo) (hs : CSorted cs) :
    (value_array.deallocate_rcu_after_update r cs ti).heap = ti.heap ∧
    (value_array.deallocate_rcu_after_update r cs ti).deallocs
      = ti.deallocs ++
        (cs.filter (fun e => decide (e.1 < r.cols.length))).filterMap
          (fun e => (r.cols.getD e.1 none).map Dealloc.colRcu)
        ++ [Dealloc.rowRcu r (value_array.shallow_size r.cols.length)] ∧
    (∀ a, Dealloc.colRcu a
        ∈ (value_array.deallocate_rcu_after_update r cs ti).deallocs ↔
      (Dealloc.colRcu a ∈ ti.deallocs ∨
        ∃ e ∈ cs, e.1 < r.cols.length ∧ r.cols.getD e.1 none = some a)) := by
  obtain ⟨hh, hd⟩ := value_array.deallocRcuLoop_spec r cs ti hs
  have hd2 : (value_array.deallocate_rcu_after_update r cs ti).deallocs
      = ti.deallocs ++
        (cs.filter (fun e => decide (e.1 < r.cols.length))).filterMap
          (fun e => (r.cols.getD e.1 none).map Dealloc.colRcu)
        ++ [Dealloc.rowRcu r (value_array.shallow_size r.cols.length)] := by
    show (value_array.deallocRcuLoop r cs ti).deallocs
        ++ [Dealloc.rowRcu r (value_array.shallow_size r.cols.length)] = _
    rw [hd]
  refine ⟨hh, hd2, ?_⟩
  intro a
  rw [hd2]
  simp only [List.mem_append, List.mem_filterMap, List.mem_filter,
    List.mem_singleton, Option.map_eq_some', decide_eq_true_eq]
  constructor
  · rintro ((hin | ⟨e, ⟨hecs, helt⟩, x, hx1, hx2⟩) | hrow)
    · exact Or.inl hin
    · cases hx2
      exact Or.inr ⟨e, hecs, helt, hx1⟩
    · cases hrow
  · rintro (hin | ⟨e, hecs, helt, hslot⟩)
    · exact Or.inl (Or.inl hin)
    · exact Or.inl (Or.inr ⟨e, ⟨hecs, helt⟩, a, hslot, rfl⟩)

/-- Witness for C4 at a concrete retirement: the truncated loop frees only
the in-range touched slot, then the header. -/
theorem dealloc_rcu_after_update_exact_witness :
    (value_array.deallocate_rcu_after_update ⟨1, [some 0, some 1]⟩
        [(1, [5]), (3, [9])] ⟨[[1], [2]], []⟩).deallocs
      = [Dealloc.colRcu 1, Dealloc.rowRcu ⟨1, [some 0, some 1]⟩ 32] :=
  ((dealloc_rcu_after_update_exact ⟨1, [some 0, some 1]⟩ [(1, [5]), (3, [9])]
      ⟨[[1], [2]], []⟩ (by decide)).2.1).trans (by decide)

/-- C5. On a row built by `update` (or `create`, which delegates to
`update`) from change-set `C`, `deallocate_after_failed_update` issues an
immediate payload reclamation for every entry of `C` (each such slot holds
a fresh payload) followed by the immediate reclamation of the row header
of size `shallow_size()`; no RCU event is issued. -/
theorem dealloc_after_failed_update_exact (r0 : Row) (cs : Changeset)
    (ts : Nat) (ti0 : ThreadInfo) (r : Row) (tiU : ThreadInfo)
    (ti : ThreadInfo) (hs : CSorted cs) (hne : cs ≠ [])
    (h : value_array.update r0 cs ts ti0 = some (r, tiU)) :
    (value_array.deallocate_after_failed_update r cs ti).heap = ti.heap ∧
    (value_array.deallocate_after_failed_update r cs ti).deallocs
      = ti.deallocs ++
        cs.filterMap (fun e => (r.cols.getD e.1 none).map Dealloc.colImm)
        ++ [Dealloc.rowImm r (value_array.shallow_size r.cols.length)] ∧
    (cs.filterMap (fun e => (r.cols.getD e.1 none).map Dealloc.colImm)).length
      = cs.length ∧
    (∀ e ∈ cs, ∃ a, r.cols.getD e.1 none = some a ∧
      Dealloc.colImm a ∈ cs.filterMap
        (fun e => (r.cols.getD e.1 none).map Dealloc.colImm)) ∧
    (∀ ev ∈ cs.filterMap (fun e => (r.cols.getD e.1 none).map Dealloc.colImm),
      ∃ a, ev = Dealloc.colImm a) := by
  obtain ⟨hh, hd⟩ := value_array.deallocImmLoop_spec r cs ti
  have hsome : ∀ e ∈ cs, ∃ a, r.cols.getD e.1 none = some a := by
    intro e he
    obtain ⟨hts, hr, _⟩ := value_array.update_inv h
    subst hr
    have hw : e.1 < (value_array.initCols r0 cs).length := by
      rw [value_array.initCols_length]
      have hle := value_array.last_index_ge cs hs e he
      have hmax : value_array.newWidth r0 cs
          = max r0.cols.length (value_array.last_index cs + 1) := rfl
      omega
    obtain ⟨a, h1, _, _, _⟩ := value_array.applyChanges_touched cs
      (value_array.initCols r0 cs) ti0 hs e.1 e.2 he hw
    exact ⟨a, h1⟩
  refine ⟨hh, ?_, ?_, ?_, ?_⟩
  · show (value_array.deallocImmLoop r cs ti).deallocs
        ++ [Dealloc.rowImm r (value_array.shallow_size r.cols.length)] = _
    rw [hd]
  · exact filterMap_length_of_isSome _ cs (fun e he => by
      obtain ⟨a, ha⟩ := hsome e he
      show (Option.map Dealloc.colImm (r.cols.getD e.1 none)).isSome = true
      rw [ha]
      rfl)
  · intro e he
    obtain ⟨a, ha⟩ := hsome e he
    refine ⟨a, ha, List.mem_filterMap.mpr ⟨e, he, ?_⟩⟩
    show Option.map Dealloc.colImm (r.cols.getD e.1 none)
        = some (Dealloc.colImm a)
    rw [ha]
    rfl
  · intro ev hev
    obtain ⟨e, he, hfe⟩ := List.mem_filterMap.mp hev
    obtain ⟨x, hx1, hx2⟩ := Option.map_eq_some'.mp hfe
    exact ⟨x, hx2.symm⟩

/-- Witness for C5 at a concrete aborted update: both fresh payloads are
freed immediately, then the header. -/
theorem dealloc_after_failed_update_exact_witness :
    (value_array.deallocate_after_failed_update
        ⟨2, [some 0, some 2, none, some 3]⟩ [(1, [5]), (3, [9])]
        ⟨[[1], [2], [5], [9]], []⟩).deallocs
      = [Dealloc.colImm 2, Dealloc.colImm 3,
         Dealloc.rowImm ⟨2, [some 0, some 2, none, some 3]⟩ 48] :=
  ((dealloc_after_failed_update_exact ⟨1, [some 0, some 1]⟩ [(1, [5]), (3, [9])]
      2 ⟨[[1], [2]], []⟩ ⟨2, [some 0, some 2, none, some 3]⟩
      ⟨[[1], [2], [5], [9]], []⟩ ⟨[[1], [2], [5], [9]], []⟩
      (by decide) (by decide) (by decide)).2.1).trans (by decide)

/-- C6. The timestamp precondition of `update`: a non-monotone timestamp
hits the fatal assertion (no row is returned), and under the precondition
the fatal branch is unreachable (a row is always returned). -/
theorem update_timestamp_precondition (r : Row) (cs : Changeset) (ts : Nat)
    (ti : ThreadInfo) :
    (ts < r.ts → value_array.update r cs ts ti = none) ∧
    (r.ts ≤ ts → (value_array.update r cs ts ti).isSome = true) := by
  constructor
  · intro h
    rw [value_array.update, if_pos h]
  · intro h
    rw [value_array.update_eq r cs ts ti h]
    rfl

/-- Witness for C6: a stale timestamp faults, a monotone one succeeds. -/
theorem update_timestamp_precondition_witness :
    value_array.update ⟨5, []⟩ [(0, [1])] 3 ⟨[], []⟩ = none ∧
    (value_array.update ⟨5, []⟩ [(0, [1])] 7 ⟨[], []⟩).isSome = true :=
  ⟨(update_timestamp_precondition ⟨5, []⟩ [(0, [1])] 3 ⟨[], []⟩).1 (by decide),
   (update_timestamp_precondition ⟨5, []⟩ [(0, [1])] 7 ⟨[], []⟩).2 (by decide)⟩

/-- C7. Along any finite chain of rows in which each row is produced from
its predecessor by an `update` call that passed its precondition, the
timestamps are non-decreasing. -/
theorem timestamps_monotone_along_updates (l : List Row)
    (h : List.Chain' value_array.IsUpdateSucc l) :
    List.Chain' (fun a b => a.ts ≤ b.ts) l := by
  refine List.Chain'.imp ?_ h
  intro a b hab
  obtain ⟨cs, ts, ti, ⟨r2, ti2⟩, hup, hout⟩ := hab
  obtain ⟨hts, hr2, _⟩ := value_array.update_inv hup
  have hb : r2 = b := hout
  subst hb
  rw [hr2]
  exact hts

/-- Witness for C7 on a concrete two-row chain. -/
theorem timestamps_monotone_along_updates_witness :
    List.Chain' (fun a b : Row => a.ts ≤ b.ts) [⟨0, []⟩, ⟨1, [some 0]⟩] :=
  timestamps_monotone_along_updates _
    (List.chain'_cons.mpr
      ⟨⟨[(0, [7])], 1, ⟨[], []⟩, (⟨1, [some 0]⟩, ⟨[[7]], []⟩),
        by decide, rfl⟩,
       List.chain'_singleton _⟩)

/-- C8. `create` is exactly `update` applied to the transient
default-constructed row (`ts = 0`, `ncol = 0`), and on a valid change-set
it yields a row with the given timestamp and width `last_index + 1`. -/
theorem create_refines_update_on_empty (cs : Changeset) (ts : Nat)
    (ti : ThreadInfo) (hs : CSorted cs) (hne : cs ≠ []) :
    value_array.create cs ts ti
      = value_array.update value_array.mkEmpty cs ts ti ∧
    ∃ r2 ti', value_array.create cs ts ti = some (r2, ti') ∧
      r2.ts = ts ∧ r2.cols.length = value_array.last_index cs + 1 := by
  refine ⟨rfl, _, _,
    value_array.update_eq value_array.mkEmpty cs ts ti (Nat.zero_le ts),
    rfl, ?_⟩
  exact ((value_array.applyChanges_length cs _ ti).trans
    (value_array.initCols_length value_array.mkEmpty cs)).trans
    (Nat.zero_max _)

/-- Witness for C8 on a concrete change-set. -/
theorem create_refines_update_on_empty_witness :
    value_array.create [(0, [5])] 3 ⟨[], []⟩
      = value_array.update value_array.mkEmpty [(0, [5])] 3 ⟨[], []⟩ ∧
    ∃ r2 ti', value_array.create [(0, [5])] 3 ⟨[], []⟩ = some (r2, ti') ∧
      r2.ts = 3 ∧ r2.cols.length = value_array.last_index [(0, [5])] + 1 :=
  create_refines_update_on_empty [(0, [5])] 3 ⟨[], []⟩ (by decide) (by decide)

/-- C9. `read_column` decodes the 4-byte length prefix, allocates a
payload of exactly the declared length, consumes exactly that many body
bytes, and fails fatally, returning no payload at all, whenever the
reader cannot supply the full prefix or the declared body. -/
theorem read_column_spec (kv : List Nat) (ti : ThreadInfo) :
    (kv.length < 4 → value_array.read_column kv ti = none) ∧
    (4 ≤ kv.length →
      kv.length - 4 < value_array.decode_u32 (kv.take 4) →
      value_array.read_column kv ti = none) ∧
    (4 ≤ kv.length →
      value_array.decode_u32 (kv.take 4) ≤ kv.length - 4 →
      value_array.read_column kv ti
        = some ((ti.heap.length,
                 (kv.drop 4).drop (value_array.decode_u32 (kv.take 4))),
                ⟨ti.heap ++ [(kv.drop 4).take (value_array.decode_u32 (kv.take 4))],
                 ti.deallocs⟩) ∧
      ((kv.drop 4).take (value_array.decode_u32 (kv.take 4))).length
        = value_array.decode_u32 (kv.take 4)) := by
  refine ⟨?_, ?_, ?_⟩
  · intro h
    rw [value_array.read_column, value_array.kvread_bytes,
      if_neg (by omega)]
  · intro h4 hlen
    rw [value_array.read_column, value_array.kvread_bytes, if_pos h4]
    show (match value_array.kvread_bytes (kv.drop 4)
        (value_array.decode_u32 (kv.take 4)) with
      | none => none
      | some (body, kv2) =>
          some (((value_array.make_column body ti).1, kv2),
                (value_array.make_column body ti).2)) = none
    rw [value_array.kvread_bytes,
      if_neg (by rw [List.length_drop]; omega)]
  · intro h4 hlen
    constructor
    · rw [value_array.read_column, value_array.kvread_bytes, if_pos h4]
      show (match value_array.kvread_bytes (kv.drop 4)
          (value_array.decode_u32 (kv.take 4)) with
        | none => none
        | some (body, kv2) =>
            some (((value_array.make_column body ti).1, kv2),
                  (value_array.make_column body ti).2)) = _
      rw [value_array.kvread_bytes,
        if_pos (by rw [List.length_drop]; omega)]
      rfl
    · rw [List.length_take, List.length_drop]
      omega

/-- Witness for C9: a well-formed stream is decoded, a truncated one is
rejected with no payload. -/
theorem read_column_spec_witness :
    value_array.read_column [2, 0, 0, 0, 7, 8, 9] ⟨[], []⟩
      = some ((0, [9]), ⟨[[7, 8]], []⟩) ∧
    value_array.read_column [2, 0, 0] ⟨[], []⟩ = none :=
  ⟨((read_column_spec [2, 0, 0, 0, 7, 8, 9] ⟨[], []⟩).2.2 (by decide)
      (by decide)).1.trans (by decide),
   (read_column_spec [2, 0, 0] ⟨[], []⟩).1 (by decide)⟩

/-- C10. Frame property of `update`: the call leaves the predecessor
intact. In the embedding a `Row` value is immutable, and the theorem
states the heap-level frame: `update` only appends fresh payloads, so the
bytes of every payload the old row references are unchanged, and no
deallocation event is issued. -/
theorem update_frame (r : Row) (cs : Changeset) (ts : Nat) (ti : ThreadInfo)
    (r2 : Row) (ti' : ThreadInfo)
    (h : value_array.update r cs ts ti = some (r2, ti')) :
    ti'.deallocs = ti.deallocs ∧
    (∃ ext, ti'.heap = ti.heap ++ ext) ∧
    (∀ a, a < ti.heap.length → ti'.heap.getD a [] = ti.heap.getD a []) ∧
    (∀ a, (some a) ∈ r.cols → a < ti.heap.length →
      ti'.heap.getD a [] = ti.heap.getD a []) := by
  obtain ⟨hts, _, hti⟩ := value_array.update_inv h
  subst hti
  exact ⟨value_array.applyChanges_deallocs cs _ ti,
    value_array.applyChanges_heap_ext cs _ ti,
    fun a ha => value_array.applyChanges_heap_getD cs _ ti a ha,
    fun a _ ha => value_array.applyChanges_heap_getD cs _ ti a ha⟩

/-- Witness for C10 at a concrete update: the bytes of an old payload are
untouched. -/
theorem update_frame_witness :
    (⟨[[1], [2], [5], [9]], []⟩ : ThreadInfo).heap.getD 0 []
      = (⟨[[1], [2]], []⟩ : ThreadInfo).heap.getD 0 [] :=
  (update_frame ⟨1, [some 0, some 1]⟩ [(1, [5]), (3, [9])] 2 ⟨[[1], [2]], []⟩
      ⟨2, [some 0, some 2, none, some 3]⟩ ⟨[[1], [2], [5], [9]], []⟩
      (by decide)).2.2.2 0 (by decide) (by decide)
